import Mathlib

/-!
Verification of the simple-arbitrage pricing, scanning and submission core.

The TypeScript source works on ethers.js `BigNumber` values: arbitrary
precision signed integers whose `div` truncates toward zero and throws on a
zero divisor.  We embed `BigNumber` as `Int`, truncating division as
`Int.tdiv`, and the possible division-by-zero exception as `Option`.
-/

/-- ethers.js `BigNumber.div`: truncating (toward zero) integer division,
throwing (`none`) exactly on a zero divisor. -/
def bnDiv (a b : Int) : Option Int :=
  if b = 0 then none else some (Int.tdiv a b)

/-- `UniswappyV2EthPair.getAmountIn` (UniswappyV2EthPair.ts:227-231):
`numerator = reserveIn * amountOut * 1000`,
`denominator = (reserveOut - amountOut) * 997`,
result `numerator.div(denominator).add(1)`. -/
def getAmountIn (reserveIn reserveOut amountOut : Int) : Option Int :=
  (bnDiv (reserveIn * amountOut * 1000) ((reserveOut - amountOut) * 997)).map (· + 1)

/-- `UniswappyV2EthPair.getAmountOut` (UniswappyV2EthPair.ts:233-238):
`amountInWithFee = amountIn * 997`, `numerator = amountInWithFee * reserveOut`,
`denominator = reserveIn * 1000 + amountInWithFee`, result
`numerator.div(denominator)`. -/
def getAmountOut (reserveIn reserveOut amountIn : Int) : Option Int :=
  bnDiv (amountIn * 997 * reserveOut) (reserveIn * 1000 + amountIn * 997)

theorem intTdiv_natCast (m n : Nat) : Int.tdiv (↑m) (↑n) = ↑(m / n) := rfl

theorem bnDiv_eq_some (a b : Int) (hb : b ≠ 0) : bnDiv a b = some (Int.tdiv a b) := by
  simp [bnDiv, hb]

/-- On nonnegative operands with a positive input reserve, `getAmountOut`
computes the natural-number floor-division formula. -/
theorem getAmountOut_natCast (rIn rOut aIn : Nat) (h : 0 < rIn) :
    getAmountOut (↑rIn) (↑rOut) (↑aIn) =
      some (((aIn * 997 * rOut / (rIn * 1000 + aIn * 997) : Nat)) : Int) := by
  have hnum : ((aIn : Int) * 997 * rOut) = ((aIn * 997 * rOut : Nat) : Int) := by
    push_cast; ring
  have hden : ((rIn : Int) * 1000 + (aIn : Int) * 997)
      = ((rIn * 1000 + aIn * 997 : Nat) : Int) := by
    push_cast; ring
  have hden0 : ((rIn * 1000 + aIn * 997 : Nat) : Int) ≠ 0 := by
    have : 0 < rIn * 1000 + aIn * 997 := by positivity
    exact_mod_cast this.ne'
  rw [getAmountOut, hnum, hden, bnDiv_eq_some _ _ hden0, intTdiv_natCast]

/-- On nonnegative operands with `amountOut < reserveOut`, `getAmountIn`
computes the natural-number floor-division formula plus one. -/
theorem getAmountIn_natCast (rIn rOut aOut : Nat) (h : aOut < rOut) :
    getAmountIn (↑rIn) (↑rOut) (↑aOut) =
      some ((↑(rIn * aOut * 1000 / ((rOut - aOut) * 997)) : Int) + 1) := by
  have hnum : ((rIn : Int) * aOut * 1000) = ((rIn * aOut * 1000 : Nat) : Int) := by
    push_cast; ring
  have hsub : ((rOut : Int) - (aOut : Int)) = ((rOut - aOut : Nat) : Int) := by
    rw [Nat.cast_sub h.le]
  have hden : (((rOut : Int) - (aOut : Int)) * 997) = (((rOut - aOut) * 997 : Nat) : Int) := by
    rw [hsub]; push_cast; ring
  have hden0 : (((rOut - aOut) * 997 : Nat) : Int) ≠ 0 := by
    have h1 : 0 < rOut - aOut := by omega
    have : 0 < (rOut - aOut) * 997 := by positivity
    exact_mod_cast this.ne'
  rw [getAmountIn, hnum, hden, bnDiv_eq_some _ _ hden0, intTdiv_natCast]
  rfl

/-- Floor division is monotone under cross multiplication. -/
theorem nat_div_le_div_cross {n1 d1 n2 d2 : Nat} (hd1 : 0 < d1) (hd2 : 0 < d2)
    (h : n1 * d2 ≤ n2 * d1) : n1 / d1 ≤ n2 / d2 := by
  rw [Nat.le_div_iff_mul_le hd2]
  have h1 : n1 / d1 * d2 * d1 ≤ n2 * d1 := by
    calc n1 / d1 * d2 * d1 = n1 / d1 * d1 * d2 := by ring
    _ ≤ n1 * d2 := Nat.mul_le_mul_right _ (Nat.div_mul_le_self n1 d1)
    _ ≤ n2 * d1 := h
  exact Nat.le_of_mul_le_mul_right h1 hd1

/-- A number is strictly below its successor-quotient times the divisor. -/
theorem nat_lt_succ_div_mul (a b : Nat) (hb : 0 < b) : a < (a / b + 1) * b :=
  (Nat.div_lt_iff_lt_mul hb).mp (Nat.lt_succ_self _)

/-- C1: for all non-negative reserves and amounts with `reserveIn > 0`,
`getAmountOut` returns exactly
`floor(amountIn * 997 * reserveOut / (reserveIn * 1000 + amountIn * 997))`. -/
theorem getAmountOut_eq_floor_formula (rIn rOut aIn : Nat) (h : 0 < rIn) :
    getAmountOut (↑rIn) (↑rOut) (↑aIn) =
      some (((aIn * 997 * rOut / (rIn * 1000 + aIn * 997) : Nat)) : Int) :=
  getAmountOut_natCast rIn rOut aIn h

/-- Witness for C1 at reserves (100, 200), amountIn 50. -/
theorem getAmountOut_eq_floor_formula_witness :
    0 < (100 : Nat) ∧
      getAmountOut ((100 : Nat) : Int) ((200 : Nat) : Int) ((50 : Nat) : Int) =
        some (((50 * 997 * 200 / (100 * 1000 + 50 * 997) : Nat)) : Int) :=
  ⟨by decide, getAmountOut_eq_floor_formula 100 200 50 (by decide)⟩

/-- C2 counterexample: at reserves (1, 1) and requested `amountOut = 2 >= 1 =
reserveOut`, `getAmountIn` does not fail: the denominator is negative, not
zero, and the truncating division returns `-2`, so the call yields `some (-1)`. -/
theorem getAmountIn_no_error_cex :
    getAmountIn 1 1 2 = some (-1) ∧ getAmountIn 1 1 2 ≠ none ∧ (1 : Int) ≤ 2 := by
  decide

/-- C2 (amended): `getAmountIn` returns the rounded-up inverse formula for
`amountOut < reserveOut`, and fails with an arithmetic (division-by-zero)
error exactly when `amountOut = reserveOut`; for `amountOut > reserveOut` it
returns a (meaningless) value instead of failing. -/
theorem getAmountIn_formula_and_failure (rIn rOut aOut : Nat) :
    (getAmountIn (↑rIn) (↑rOut) (↑aOut) = none ↔ rOut = aOut) ∧
      (aOut < rOut →
        getAmountIn (↑rIn) (↑rOut) (↑aOut) =
          some ((↑(rIn * aOut * 1000 / ((rOut - aOut) * 997)) : Int) + 1)) := by
  constructor
  · rw [getAmountIn]
    constructor
    · intro h
      by_contra hne
      have hden : ((rOut : Int) - (aOut : Int)) * 997 ≠ 0 := by
        have : ((rOut : Int) - (aOut : Int)) ≠ 0 := by
          intro h0
          exact hne (by exact_mod_cast sub_eq_zero.mp h0)
        exact mul_ne_zero this (by norm_num)
      rw [bnDiv_eq_some _ _ hden] at h
      simp at h
    · intro h
      subst h
      simp [bnDiv]
  · intro h
    exact getAmountIn_natCast rIn rOut aOut h

/-- Witness for C2's amended theorem at reserves (100, 50), amountOut 20 and 50. -/
theorem getAmountIn_formula_and_failure_witness :
    ((getAmountIn ((100 : Nat) : Int) ((50 : Nat) : Int) ((20 : Nat) : Int) = none ↔
        (50 : Nat) = 20) ∧
      ((20 : Nat) < 50 →
        getAmountIn ((100 : Nat) : Int) ((50 : Nat) : Int) ((20 : Nat) : Int) =
          some ((↑(100 * 20 * 1000 / ((50 - 20) * 997)) : Int) + 1))) :=
  getAmountIn_formula_and_failure 100 50 20

/-- C3 counterexample: at positive reserves (1, 1) and positive `amountIn = 5`,
`getAmountOut` truncates to 0, and `getAmountIn` at 0 returns 1 < 5, so the
claimed round-trip inequality fails. -/
theorem roundtrip_getAmountIn_getAmountOut_cex :
    getAmountOut 1 1 5 = some 0 ∧ getAmountIn 1 1 0 = some 1 ∧ (1 : Int) < 5 ∧
      (0 : Int) < 1 ∧ (0 : Int) < 5 := by
  decide

/-- C3 (amended): the conservative-rounding inverse property holds in the
opposite composition order: for positive reserves and any requested
`amountOut < reserveOut`, paying `getAmountIn(reserveIn, reserveOut,
amountOut)` into `getAmountOut` returns at least `amountOut` — the rounding
never under-pays.  The composition as originally stated can return strictly
less than `amountIn`. -/
theorem getAmountOut_after_getAmountIn_ge (rIn rOut aOut : Nat)
    (hrIn : 0 < rIn) (h : aOut < rOut) :
    ∃ aIn payout : Int,
      getAmountIn (↑rIn) (↑rOut) (↑aOut) = some aIn ∧
        getAmountOut (↑rIn) (↑rOut) aIn = some payout ∧ (↑aOut : Int) ≤ payout := by
  obtain ⟨k, rfl⟩ : ∃ k, rOut = aOut + k + 1 := ⟨rOut - aOut - 1, by omega⟩
  set q : Nat := rIn * aOut * 1000 / ((aOut + k + 1 - aOut) * 997) with hq
  have hsimp : aOut + k + 1 - aOut = k + 1 := by omega
  refine ⟨↑(q + 1), ↑((q + 1) * 997 * (aOut + k + 1) / (rIn * 1000 + (q + 1) * 997)), ?_, ?_, ?_⟩
  · rw [getAmountIn_natCast rIn (aOut + k + 1) aOut h, hsimp]
    rw [hq, hsimp]
    push_cast
    ring_nf
  · exact getAmountOut_natCast rIn (aOut + k + 1) (q + 1) hrIn
  · have hkey : rIn * aOut * 1000 < (q + 1) * ((k + 1) * 997) := by
      have := nat_lt_succ_div_mul (rIn * aOut * 1000) ((k + 1) * 997) (by positivity)
      rw [hq, hsimp]
      exact this
    have hmain : aOut * (rIn * 1000 + (q + 1) * 997) ≤ (q + 1) * 997 * (aOut + k + 1) := by
      nlinarith [hkey]
    have hdiv : aOut ≤ (q + 1) * 997 * (aOut + k + 1) / (rIn * 1000 + (q + 1) * 997) :=
      (Nat.le_div_iff_mul_le (by positivity)).mpr (by nlinarith [hmain])
    exact_mod_cast hdiv

/-- Witness for C3's amended theorem at reserves (1, 2), amountOut 1. -/
theorem getAmountOut_after_getAmountIn_ge_witness :
    (0 < (1 : Nat) ∧ (1 : Nat) < 2) ∧
      ∃ aIn payout : Int,
        getAmountIn ((1 : Nat) : Int) ((2 : Nat) : Int) ((1 : Nat) : Int) = some aIn ∧
          getAmountOut ((1 : Nat) : Int) ((2 : Nat) : Int) aIn = some payout ∧
            (((1 : Nat) : Int)) ≤ payout :=
  ⟨⟨by decide, by decide⟩, getAmountOut_after_getAmountIn_ge 1 2 1 (by decide) (by decide)⟩

/-- C4: for fixed positive reserves, `getAmountOut` is monotonically
non-decreasing in `amountIn`, and every output is strictly below
`reserveOut`. -/
theorem getAmountOut_monotone_and_lt_reserveOut (rIn rOut a1 a2 : Nat)
    (hrIn : 0 < rIn) (hrOut : 0 < rOut) (h12 : a1 ≤ a2) :
    ∃ o1 o2 : Int,
      getAmountOut (↑rIn) (↑rOut) (↑a1) = some o1 ∧
        getAmountOut (↑rIn) (↑rOut) (↑a2) = some o2 ∧
          o1 ≤ o2 ∧ o2 < (↑rOut : Int) := by
  refine ⟨↑(a1 * 997 * rOut / (rIn * 1000 + a1 * 997)),
    ↑(a2 * 997 * rOut / (rIn * 1000 + a2 * 997)),
    getAmountOut_natCast rIn rOut a1 hrIn, getAmountOut_natCast rIn rOut a2 hrIn, ?_, ?_⟩
  · have hcross : (a1 * 997 * rOut) * (rIn * 1000 + a2 * 997) ≤
        (a2 * 997 * rOut) * (rIn * 1000 + a1 * 997) := by
      nlinarith [Nat.mul_le_mul_right (997 * rOut * (rIn * 1000)) h12]
    have := @nat_div_le_div_cross (a1 * 997 * rOut) (rIn * 1000 + a1 * 997)
      (a2 * 997 * rOut) (rIn * 1000 + a2 * 997) (by positivity) (by positivity) hcross
    exact Nat.cast_le.mpr this
  · have hpos : 0 < rOut * (rIn * 1000) := by positivity
    have hlt : a2 * 997 * rOut < rOut * (rIn * 1000 + a2 * 997) := by nlinarith [hpos]
    have := (Nat.div_lt_iff_lt_mul (by positivity : 0 < rIn * 1000 + a2 * 997)).mpr hlt
    exact Nat.cast_lt.mpr this

/-- Witness for C4 at reserves (100, 100), amounts 3 and 7. -/
theorem getAmountOut_monotone_and_lt_reserveOut_witness :
    (0 < (100 : Nat) ∧ 0 < (100 : Nat) ∧ (3 : Nat) ≤ 7) ∧
      ∃ o1 o2 : Int,
        getAmountOut ((100 : Nat) : Int) ((100 : Nat) : Int) ((3 : Nat) : Int) = some o1 ∧
          getAmountOut ((100 : Nat) : Int) ((100 : Nat) : Int) ((7 : Nat) : Int) = some o2 ∧
            o1 ≤ o2 ∧ o2 < (((100 : Nat)) : Int) :=
  ⟨⟨by decide, by decide, by decide⟩,
    getAmountOut_monotone_and_lt_reserveOut 100 100 3 7 (by decide) (by decide) (by decide)⟩

/-- `ETHER` (utils.ts): one base-asset unit, `10^18` wei. -/
def ETHER : Int := 10 ^ 18

/-- A Uniswap-v2-style WETH pair as used by the scanner: an identity plus its
two reserve balances (the WETH reserve and the non-base-token reserve). -/
structure EthMarket where
  marketAddress : Nat
  reserveWeth : Int
  reserveToken : Int
deriving DecidableEq

/-- One entry of `pricedMarkets` (Arbitrage.ts:153-189): the market plus its
`buyTokenPrice` (via `getTokensIn(token, WETH, ETHER/100)`, i.e.
`getAmountIn(reserveToken, reserveWeth, ETHER/100)`) and `sellTokenPrice`
(via `getTokensOut(WETH, token, ETHER/100)`, i.e.
`getAmountOut(reserveWeth, reserveToken, ETHER/100)`). -/
structure PricedMarket where
  ethMarket : EthMarket
  buyTokenPrice : Int
  sellTokenPrice : Int
deriving DecidableEq

/-- Price one market at the fixed probe amount `ETHER/100`
(Arbitrage.ts:153-189); `none` models the BigNumber arithmetic throwing. -/
def priceMarket (m : EthMarket) : Option PricedMarket :=
  match getAmountIn m.reserveToken m.reserveWeth (Int.tdiv ETHER 100),
      getAmountOut m.reserveWeth m.reserveToken (Int.tdiv ETHER 100) with
  | some b, some s => some ⟨m, b, s⟩
  | _, _ => none

/-- `pricedMarkets` for a token's market list (Arbitrage.ts:153-189). -/
def pricedMarketsOf : List EthMarket → Option (List PricedMarket)
  | [] => some []
  | m :: rest =>
    match priceMarket m, pricedMarketsOf rest with
    | some p, some tail => some (p :: tail)
    | _, _ => none

/-- The crossed-market scan (Arbitrage.ts:199-205): for each `pricedMarket`,
push `[pricedMarket.ethMarket, pm.ethMarket]` for every `pm` whose
`sellTokenPrice` exceeds `pricedMarket`'s `buyTokenPrice`.  The first slot is
consumed downstream as `sellToMarket`, the second as `buyFromMarket`
(Arbitrage.ts:46-49). -/
def crossedMarketsFrom (pricedMarkets : List PricedMarket) : List (EthMarket × EthMarket) :=
  pricedMarkets.flatMap fun pricedMarket =>
    (pricedMarkets.filter fun pm =>
        decide (pricedMarket.buyTokenPrice < pm.sellTokenPrice)).map
      fun pm => (pricedMarket.ethMarket, pm.ethMarket)

theorem priceMarket_eq_some {m : EthMarket} {p : PricedMarket} :
    priceMarket m = some p ↔
      p.ethMarket = m ∧
        getAmountIn m.reserveToken m.reserveWeth (Int.tdiv ETHER 100) = some p.buyTokenPrice ∧
          getAmountOut m.reserveWeth m.reserveToken (Int.tdiv ETHER 100) = some p.sellTokenPrice := by
  cases p with
  | mk pe pb ps =>
    unfold priceMarket
    cases hb : getAmountIn m.reserveToken m.reserveWeth (Int.tdiv ETHER 100) with
    | none => simp
    | some b =>
      cases hs : getAmountOut m.reserveWeth m.reserveToken (Int.tdiv ETHER 100) with
      | none => simp
      | some s =>
        simp only [Option.some_inj, PricedMarket.mk.injEq]
        constructor
        · rintro ⟨rfl, rfl, rfl⟩
          exact ⟨rfl, rfl, rfl⟩
        · rintro ⟨rfl, rfl, rfl⟩
          exact ⟨rfl, rfl, rfl⟩

theorem pricedMarketsOf_sound :
    ∀ {ms : List EthMarket} {pms : List PricedMarket}, pricedMarketsOf ms = some pms →
      ∀ p ∈ pms, p.ethMarket ∈ ms ∧ priceMarket p.ethMarket = some p := by
  intro ms
  induction ms with
  | nil =>
    intro pms h p hp
    simp only [pricedMarketsOf, Option.some_inj] at h
    subst h
    simp at hp
  | cons m rest ih =>
    intro pms h p hp
    unfold pricedMarketsOf at h
    cases hm : priceMarket m with
    | none => rw [hm] at h; simp at h
    | some pm =>
      rw [hm] at h
      cases hr : pricedMarketsOf rest with
      | none => rw [hr] at h; simp at h
      | some tail =>
        rw [hr] at h
        simp only [Option.some_inj] at h
        subst h
        rcases List.mem_cons.mp hp with hp | hp
        · subst hp
          have hpe : p.ethMarket = m := (priceMarket_eq_some.mp hm).1
          rw [hpe]
          exact ⟨List.mem_cons_self _ _, hm⟩
        · have := ih hr p hp
          exact ⟨List.mem_cons_of_mem _ this.1, this.2⟩

theorem pricedMarketsOf_complete :
    ∀ {ms : List EthMarket} {pms : List PricedMarket}, pricedMarketsOf ms = some pms →
      ∀ m ∈ ms, ∃ p ∈ pms, p.ethMarket = m ∧ priceMarket m = some p := by
  intro ms
  induction ms with
  | nil => intro pms h m hm; simp at hm
  | cons m0 rest ih =>
    intro pms h m hm
    unfold pricedMarketsOf at h
    cases hm0 : priceMarket m0 with
    | none => rw [hm0] at h; simp at h
    | some pm =>
      rw [hm0] at h
      cases hr : pricedMarketsOf rest with
      | none => rw [hr] at h; simp at h
      | some tail =>
        rw [hr] at h
        simp only [Option.some_inj] at h
        subst h
        rcases List.mem_cons.mp hm with hm | hm
        · subst hm
          exact ⟨pm, List.mem_cons_self _ _, (priceMarket_eq_some.mp hm0).1, hm0⟩
        · obtain ⟨p, hp, hpe, hpm⟩ := ih hr m hm
          exact ⟨p, List.mem_cons_of_mem _ hp, hpe, hpm⟩

/-- Characterization of the emitted crossed pairs: `(A, B)` — `A` in the
sell-to slot, `B` in the buy-from slot — is emitted iff both markets are in
the scanned list and `B`'s sell price exceeds `A`'s buy price. -/
theorem crossed_mem_iff {ms : List EthMarket} {pms : List PricedMarket}
    (hp : pricedMarketsOf ms = some pms) (A B : EthMarket) :
    (A, B) ∈ crossedMarketsFrom pms ↔
      A ∈ ms ∧ B ∈ ms ∧ ∃ bA sB : Int,
        getAmountIn A.reserveToken A.reserveWeth (Int.tdiv ETHER 100) = some bA ∧
          getAmountOut B.reserveWeth B.reserveToken (Int.tdiv ETHER 100) = some sB ∧
            bA < sB := by
  unfold crossedMarketsFrom
  rw [List.mem_flatMap]
  constructor
  · rintro ⟨pA, hpA, hmem⟩
    rw [List.mem_map] at hmem
    obtain ⟨pB, hpBf, heq⟩ := hmem
    rw [List.mem_filter] at hpBf
    obtain ⟨hpB, hcond⟩ := hpBf
    have hA := pricedMarketsOf_sound hp pA hpA
    have hB := pricedMarketsOf_sound hp pB hpB
    obtain ⟨h1, h2⟩ := Prod.mk.injEq .. ▸ heq
    subst h1
    subst h2
    refine ⟨hA.1, hB.1, pA.buyTokenPrice, pB.sellTokenPrice, ?_, ?_, ?_⟩
    · exact (priceMarket_eq_some.mp hA.2).2.1
    · exact (priceMarket_eq_some.mp hB.2).2.2
    · exact of_decide_eq_true hcond
  · rintro ⟨hA, hB, bA, sB, hbA, hsB, hlt⟩
    obtain ⟨pA, hpA, hpAe, hpAm⟩ := pricedMarketsOf_complete hp A hA
    obtain ⟨pB, hpB, hpBe, hpBm⟩ := pricedMarketsOf_complete hp B hB
    have h1 := priceMarket_eq_some.mp hpAm
    have h2 := priceMarket_eq_some.mp hpBm
    have hbuy : pA.buyTokenPrice = bA := Option.some_inj.mp (h1.2.1.symm.trans hbA)
    have hsell : pB.sellTokenPrice = sB := Option.some_inj.mp (h2.2.2.symm.trans hsB)
    refine ⟨pA, hpA, ?_⟩
    rw [List.mem_map]
    refine ⟨pB, ?_, ?_⟩
    · rw [List.mem_filter]
      exact ⟨hpB, decide_eq_true (by rw [hbuy, hsell]; exact hlt)⟩
    · rw [hpAe, hpBe]

/-- C5 counterexample: with markets `M1 = ⟨1, 10^19, 10^18⟩` and
`M2 = ⟨2, 10^19, 10^19⟩` exactly one cross exists — `M2`'s sell price exceeds
`M1`'s buy price (and also `M1`'s sell price), so `M_sell = M2` — yet the
emitted pair is `(M1, M2)`, i.e. the sell-to slot holds `M1`, not the
greater-sell-price market `M2`. -/
theorem scanner_orientation_cex :
    crossedMarketsFrom ((pricedMarketsOf [⟨1, 10^19, 10^18⟩, ⟨2, 10^19, 10^19⟩]).getD []) =
        [(⟨1, 10^19, 10^18⟩, ⟨2, 10^19, 10^19⟩)] ∧
      (⟨1, 10^19, 10^18⟩ : EthMarket) ≠ ⟨2, 10^19, 10^19⟩ ∧
        (getAmountIn (10^18) (10^19) (Int.tdiv ETHER 100)).getD 0 <
            (getAmountOut (10^19) (10^19) (Int.tdiv ETHER 100)).getD 0 ∧
          (getAmountOut (10^19) (10^18) (Int.tdiv ETHER 100)).getD 0 <
            (getAmountOut (10^19) (10^19) (Int.tdiv ETHER 100)).getD 0 := by
  decide

/-- C5 (amended): the scanner prices every market by `quoteInput` (buy) and
`quoteOutput` (sell) at the probe amount `ETHER/100` and emits a candidate
pair exactly for every ordered pair with `M_sell.sellPrice > M_buy.buyPrice`;
the emitted pair is oriented with the *buy-from* slot holding `M_sell` (the
market with the greater sell price) and the *sell-to* slot holding `M_buy` —
the opposite of the claimed orientation. -/
theorem scanner_emits_iff_cross {ms : List EthMarket} {pms : List PricedMarket}
    (hp : pricedMarketsOf ms = some pms) (A B : EthMarket) :
    (A, B) ∈ crossedMarketsFrom pms ↔
      A ∈ ms ∧ B ∈ ms ∧ ∃ bA sB : Int,
        getAmountIn A.reserveToken A.reserveWeth (Int.tdiv ETHER 100) = some bA ∧
          getAmountOut B.reserveWeth B.reserveToken (Int.tdiv ETHER 100) = some sB ∧
            bA < sB :=
  crossed_mem_iff hp A B

/-- Witness for C5's amended theorem on the two-market counterexample list. -/
theorem scanner_emits_iff_cross_witness :
    pricedMarketsOf [⟨1, 10^19, 10^18⟩, ⟨2, 10^19, 10^19⟩] =
        some ((pricedMarketsOf [⟨1, 10^19, 10^18⟩, ⟨2, 10^19, 10^19⟩]).getD []) ∧
      (((⟨1, 10^19, 10^18⟩ : EthMarket), (⟨2, 10^19, 10^19⟩ : EthMarket)) ∈
        crossedMarketsFrom ((pricedMarketsOf [⟨1, 10^19, 10^18⟩, ⟨2, 10^19, 10^19⟩]).getD [])) :=
  ⟨by decide,
    (@scanner_emits_iff_cross [⟨1, 10^19, 10^18⟩, ⟨2, 10^19, 10^19⟩]
        ((pricedMarketsOf [⟨1, 10^19, 10^18⟩, ⟨2, 10^19, 10^19⟩]).getD [])
        (by decide) ⟨1, 10^19, 10^18⟩ ⟨2, 10^19, 10^19⟩).mpr
      ⟨by decide, by decide,
        (getAmountIn (10^18) (10^19) (Int.tdiv ETHER 100)).getD 0,
        (getAmountOut (10^19) (10^19) (Int.tdiv ETHER 100)).getD 0,
        by decide, by decide, by decide⟩⟩

/-- For a market whose WETH reserve exceeds the probe amount and whose token
reserve is nonnegative, the sell price at the probe never exceeds the buy
price: a market cannot cross itself. -/
theorem sell_le_buy {m : EthMarket} (hW : Int.tdiv ETHER 100 < m.reserveWeth)
    (hT : 0 ≤ m.reserveToken) {b s : Int}
    (hb : getAmountIn m.reserveToken m.reserveWeth (Int.tdiv ETHER 100) = some b)
    (hs : getAmountOut m.reserveWeth m.reserveToken (Int.tdiv ETHER 100) = some s) :
    s ≤ b := by
  have hE : Int.tdiv ETHER 100 = ((10 ^ 16 : Nat) : Int) := by decide
  have hW0 : (0 : Int) ≤ m.reserveWeth := le_of_lt (lt_of_le_of_lt (by decide) hW)
  set w : Nat := m.reserveWeth.toNat with hwdef
  set t : Nat := m.reserveToken.toNat with htdef
  have hw : (w : Int) = m.reserveWeth := Int.toNat_of_nonneg hW0
  have ht : (t : Int) = m.reserveToken := Int.toNat_of_nonneg hT
  have hEw : 10 ^ 16 < w := by
    have := hW
    rw [hE, ← hw] at this
    exact_mod_cast this
  rw [← hw, ← ht, hE] at hb hs
  rw [getAmountIn_natCast t w (10 ^ 16) hEw] at hb
  rw [getAmountOut_natCast w t (10 ^ 16) (by omega)] at hs
  have hbv : b = ((t * 10 ^ 16 * 1000 / ((w - 10 ^ 16) * 997) : Nat) : Int) + 1 :=
    (Option.some_inj.mp hb).symm
  have hsv : s = ((10 ^ 16 * 997 * t / (w * 1000 + 10 ^ 16 * 997) : Nat) : Int) :=
    (Option.some_inj.mp hs).symm
  have hcross : (10 ^ 16 * 997 * t) * ((w - 10 ^ 16) * 997) ≤
      (t * 10 ^ 16 * 1000) * (w * 1000 + 10 ^ 16 * 997) := by
    calc (10 ^ 16 * 997 * t) * ((w - 10 ^ 16) * 997)
        ≤ (10 ^ 16 * 997 * t) * (w * 997) := by
          exact Nat.mul_le_mul_left _ (Nat.mul_le_mul_right _ (Nat.sub_le w _))
      _ = 994009 * (10 ^ 16 * t * w) := by ring
      _ ≤ 1000000 * (10 ^ 16 * t * w) := Nat.mul_le_mul_right _ (by norm_num)
      _ = (t * 10 ^ 16 * 1000) * (w * 1000) := by ring
      _ ≤ (t * 10 ^ 16 * 1000) * (w * 1000 + 10 ^ 16 * 997) :=
          Nat.mul_le_mul_left _ (Nat.le_add_right _ _)
  have hdiv : 10 ^ 16 * 997 * t / (w * 1000 + 10 ^ 16 * 997) ≤
      t * 10 ^ 16 * 1000 / ((w - 10 ^ 16) * 997) :=
    nat_div_le_div_cross (by omega) (by omega : 0 < (w - 10 ^ 16) * 997) hcross
  rw [hbv, hsv]
  have : ((10 ^ 16 * 997 * t / (w * 1000 + 10 ^ 16 * 997) : Nat) : Int) ≤
      ((t * 10 ^ 16 * 1000 / ((w - 10 ^ 16) * 997) : Nat) : Int) := Nat.cast_le.mpr hdiv
  linarith

/-- C6 counterexample: the market `⟨1, 10^15, 10^18⟩` has positive reserves,
but its WETH reserve is below the probe amount `ETHER/100 = 10^16`, making its
buy price negative while its sell price is positive — so the scanner emits the
self-pair `(m, m)`: a market *can* cross itself at positive reserves. -/
theorem scanner_self_cross_cex :
    (0 : Int) < 10 ^ 15 ∧ (0 : Int) < 10 ^ 18 ∧
      pricedMarketsOf [⟨1, 10^15, 10^18⟩] =
          some ((pricedMarketsOf [⟨1, 10^15, 10^18⟩]).getD []) ∧
        ((⟨1, 10^15, 10^18⟩ : EthMarket), (⟨1, 10^15, 10^18⟩ : EthMarket)) ∈
          crossedMarketsFrom ((pricedMarketsOf [⟨1, 10^15, 10^18⟩]).getD []) := by
  decide

/-- C6 (amended): for markets whose WETH reserve exceeds the probe amount
`ETHER/100` (guaranteed in the pipeline by the liquidity filter
`pair.getBalance(WETH) > ETHER`, UniswappyV2EthPair.ts:147) and nonnegative
token reserves, the scanner never emits a pair whose buy-from and sell-to are
the same market: a market's sell price never strictly exceeds its own buy
price. -/
theorem scanner_no_self_pair {ms : List EthMarket} {pms : List PricedMarket}
    (hp : pricedMarketsOf ms = some pms)
    (hres : ∀ m ∈ ms, Int.tdiv ETHER 100 < m.reserveWeth ∧ 0 ≤ m.reserveToken) :
    ∀ A : EthMarket, (A, A) ∉ crossedMarketsFrom pms := by
  intro A hmem
  rw [crossed_mem_iff hp] at hmem
  obtain ⟨hA, _, bA, sA, hb, hs, hlt⟩ := hmem
  exact absurd hlt (not_lt.mpr (sell_le_buy (hres A hA).1 (hres A hA).2 hb hs))

/-- Witness for C6's amended theorem on a healthy one-market list. -/
theorem scanner_no_self_pair_witness :
    pricedMarketsOf [⟨1, 10^19, 10^18⟩] =
        some ((pricedMarketsOf [⟨1, 10^19, 10^18⟩]).getD []) ∧
      (∀ m ∈ [(⟨1, 10^19, 10^18⟩ : EthMarket)],
        Int.tdiv ETHER 100 < m.reserveWeth ∧ 0 ≤ m.reserveToken) ∧
        ((⟨1, 10^19, 10^18⟩ : EthMarket), (⟨1, 10^19, 10^18⟩ : EthMarket)) ∉
          crossedMarketsFrom ((pricedMarketsOf [⟨1, 10^19, 10^18⟩]).getD []) :=
  ⟨by decide, by decide,
    @scanner_no_self_pair [⟨1, 10^19, 10^18⟩]
      ((pricedMarketsOf [⟨1, 10^19, 10^18⟩]).getD [])
      (by decide) (by decide) ⟨1, 10^19, 10^18⟩⟩

/-- `CrossedMarketDetails` (Arbitrage.ts:8-14). -/
structure CrossedMarketDetails where
  profit : Int
  volume : Int
  tokenAddress : Nat
  buyFromMarket : EthMarket
  sellToMarket : EthMarket
deriving DecidableEq

/-- `TEST_VOLUMES` (Arbitrage.ts:19-29): the fixed ascending probe ladder. -/
def TEST_VOLUMES : List Int :=
  [Int.tdiv ETHER 100, Int.tdiv ETHER 10, Int.tdiv ETHER 6, Int.tdiv ETHER 4,
    Int.tdiv ETHER 2, Int.tdiv ETHER 1, ETHER * 2, ETHER * 5, ETHER * 10]

/-- One ladder probe (Arbitrage.ts:57-63): tokens bought with `size` WETH on
the buy-from market are sold on the sell-to market; profit is the WETH
proceeds minus `size`. -/
def profitAt (buyFromMarket sellToMarket : EthMarket) (size : Int) : Option Int :=
  match getAmountOut buyFromMarket.reserveWeth buyFromMarket.reserveToken size with
  | none => none
  | some tokensOutFromBuyingSize =>
    match getAmountOut sellToMarket.reserveToken sellToMarket.reserveWeth
        tokensOutFromBuyingSize with
    | none => none
    | some proceedsFromSellingTokens => some (proceedsFromSellingTokens - size)

/-- The inner `TEST_VOLUMES` loop of `getBestCrossedMarket`
(Arbitrage.ts:54-104): carries the best-so-far; on the first size whose
profit drops below the best, probes the midpoint `(size + best.volume)/2`,
adopts it only on strict improvement, and breaks.  The outer `Option` models
a BigNumber exception aborting the scan. -/
def scanVolumes (sellToMarket buyFromMarket : EthMarket) (tokenAddress : Nat) :
    Option CrossedMarketDetails → List Int → Option (Option CrossedMarketDetails)
  | best, [] => some best
  | best, size :: rest =>
    match profitAt buyFromMarket sellToMarket size with
    | none => none
    | some profit =>
      match best with
      | some b =>
        if profit < b.profit then
          match profitAt buyFromMarket sellToMarket (Int.tdiv (size + b.volume) 2) with
          | none => none
          | some tryProfit =>
            if b.profit < tryProfit then
              some (some ⟨tryProfit, Int.tdiv (size + b.volume) 2, tokenAddress,
                buyFromMarket, sellToMarket⟩)
            else some (some b)
        else
          scanVolumes sellToMarket buyFromMarket tokenAddress
            (some ⟨profit, size, tokenAddress, buyFromMarket, sellToMarket⟩) rest
      | none =>
        scanVolumes sellToMarket buyFromMarket tokenAddress
          (some ⟨profit, size, tokenAddress, buyFromMarket, sellToMarket⟩) rest

/-- Outer loop of `getBestCrossedMarket` over the crossed pairs
(Arbitrage.ts:44-105); the best-so-far carries across pairs. -/
def getBestCrossedMarketGo (tokenAddress : Nat) :
    Option CrossedMarketDetails → List (EthMarket × EthMarket) →
      Option (Option CrossedMarketDetails)
  | best, [] => some best
  | best, (sellToMarket, buyFromMarket) :: rest =>
    match scanVolumes sellToMarket buyFromMarket tokenAddress best TEST_VOLUMES with
    | none => none
    | some best2 => getBestCrossedMarketGo tokenAddress best2 rest

/-- `getBestCrossedMarket` (Arbitrage.ts:39-107). -/
def getBestCrossedMarket (crossedMarkets : List (EthMarket × EthMarket))
    (tokenAddress : Nat) : Option (Option CrossedMarketDetails) :=
  getBestCrossedMarketGo tokenAddress none crossedMarkets

/-- C7: at the first ladder size whose profit is below the current best, the
scan evaluates exactly the midpoint `(size + best.volume)/2`, adopts it iff
its profit strictly exceeds the best profit, and stops regardless — the
remaining ladder sizes are never visited. -/
theorem ladder_break_midpoint_step (sellToMarket buyFromMarket : EthMarket)
    (tokenAddress : Nat) (b : CrossedMarketDetails) (size : Int) (rest : List Int)
    (p q : Int) (hp : profitAt buyFromMarket sellToMarket size = some p)
    (hlt : p < b.profit)
    (hq : profitAt buyFromMarket sellToMarket (Int.tdiv (size + b.volume) 2) = some q) :
    scanVolumes sellToMarket buyFromMarket tokenAddress (some b) (size :: rest) =
      some (some (if b.profit < q then
        ⟨q, Int.tdiv (size + b.volume) 2, tokenAddress, buyFromMarket, sellToMarket⟩
      else b)) := by
  simp only [scanVolumes, hp, hq, hlt, if_true]
  split <;> rfl

/-- Witness for C7 on a small concrete market: the midpoint probe does not
improve, so the incoming best survives and the tail `[77]` is never scanned. -/
theorem ladder_break_midpoint_step_witness :
    (profitAt ⟨1, 10^6, 10^6⟩ ⟨1, 10^6, 10^6⟩ 100 = some (-2) ∧ (-2 : Int) < 5 ∧
      profitAt ⟨1, 10^6, 10^6⟩ ⟨1, 10^6, 10^6⟩ (Int.tdiv (100 + 50) 2) = some (-2)) ∧
      scanVolumes ⟨1, 10^6, 10^6⟩ ⟨1, 10^6, 10^6⟩ 9
          (some ⟨5, 50, 9, ⟨1, 10^6, 10^6⟩, ⟨1, 10^6, 10^6⟩⟩) [100, 77] =
        some (some ⟨5, 50, 9, ⟨1, 10^6, 10^6⟩, ⟨1, 10^6, 10^6⟩⟩) :=
  ⟨⟨by decide, by decide, by decide⟩, by
    have h := ladder_break_midpoint_step ⟨1, 10^6, 10^6⟩ ⟨1, 10^6, 10^6⟩ 9
      ⟨5, 50, 9, ⟨1, 10^6, 10^6⟩, ⟨1, 10^6, 10^6⟩⟩ 100 [77] (-2) (-2)
      (by decide) (by decide) (by decide)
    exact h.trans (by decide)⟩

theorem scanVolumes_isSome {sellToMarket buyFromMarket : EthMarket} {tokenAddress : Nat} :
    ∀ {l : List Int} {best : Option CrossedMarketDetails} {r : Option CrossedMarketDetails},
      scanVolumes sellToMarket buyFromMarket tokenAddress best l = some r →
        best.isSome → r.isSome := by
  intro l
  induction l with
  | nil =>
    intro best r h hb
    unfold scanVolumes at h
    exact Option.some_inj.mp h ▸ hb
  | cons size rest ih =>
    intro best r h hb
    unfold scanVolumes at h
    cases hp : profitAt buyFromMarket sellToMarket size with
    | none => rw [hp] at h; simp at h
    | some profit =>
      rw [hp] at h
      cases best with
      | none => simp at hb
      | some b =>
        simp only at h
        by_cases hcmp : profit < b.profit
        · rw [if_pos hcmp] at h
          cases hq : profitAt buyFromMarket sellToMarket (Int.tdiv (size + b.volume) 2) with
          | none => rw [hq] at h; simp at h
          | some tryProfit =>
            rw [hq] at h
            simp only at h
            by_cases htry : b.profit < tryProfit
            · rw [if_pos htry] at h
              exact Option.some_inj.mp h ▸ rfl
            · rw [if_neg htry] at h
              exact Option.some_inj.mp h ▸ rfl
        · rw [if_neg hcmp] at h
          exact ih h rfl

theorem scanVolumes_nonempty_isSome {sellToMarket buyFromMarket : EthMarket}
    {tokenAddress : Nat} {size : Int} {rest : List Int}
    {r : Option CrossedMarketDetails}
    (h : scanVolumes sellToMarket buyFromMarket tokenAddress none (size :: rest) = some r) :
    r.isSome := by
  unfold scanVolumes at h
  cases hp : profitAt buyFromMarket sellToMarket size with
  | none => rw [hp] at h; simp at h
  | some profit =>
    rw [hp] at h
    simp only at h
    exact scanVolumes_isSome h rfl

theorem getBestCrossedMarketGo_isSome {tokenAddress : Nat} :
    ∀ {cms : List (EthMarket × EthMarket)} {best r : Option CrossedMarketDetails},
      getBestCrossedMarketGo tokenAddress best cms = some r → best.isSome → r.isSome := by
  intro cms
  induction cms with
  | nil =>
    intro best r h hb
    unfold getBestCrossedMarketGo at h
    exact Option.some_inj.mp h ▸ hb
  | cons hd rest ih =>
    intro best r h hb
    obtain ⟨sellToMarket, buyFromMarket⟩ := hd
    unfold getBestCrossedMarketGo at h
    cases hs : scanVolumes sellToMarket buyFromMarket tokenAddress best TEST_VOLUMES with
    | none => rw [hs] at h; simp at h
    | some best2 =>
      rw [hs] at h
      exact ih h (scanVolumes_isSome hs hb)

/-- C10: given that the scan completes without an arithmetic exception,
`getBestCrossedMarket` returns `undefined` iff its crossed-market list is
empty: on any non-empty list the first ladder volume of the first pair is
adopted unconditionally (even at zero or negative profit), so a result is
always produced; positivity of its profit is enforced only by the caller's
threshold filter. -/
theorem getBestCrossedMarket_none_iff_empty (cms : List (EthMarket × EthMarket))
    (tokenAddress : Nat) (r : Option CrossedMarketDetails)
    (h : getBestCrossedMarket cms tokenAddress = some r) :
    r = none ↔ cms = [] := by
  cases cms with
  | nil =>
    unfold getBestCrossedMarket getBestCrossedMarketGo at h
    have := Option.some_inj.mp h
    subst this
    simp
  | cons hd tl =>
    obtain ⟨sellToMarket, buyFromMarket⟩ := hd
    unfold getBestCrossedMarket getBestCrossedMarketGo at h
    cases hs : scanVolumes sellToMarket buyFromMarket tokenAddress none TEST_VOLUMES with
    | none => rw [hs] at h; simp at h
    | some best2 =>
      rw [hs] at h
      have hb2 : best2.isSome := by
        have : TEST_VOLUMES = Int.tdiv ETHER 100 :: [Int.tdiv ETHER 10, Int.tdiv ETHER 6,
            Int.tdiv ETHER 4, Int.tdiv ETHER 2, Int.tdiv ETHER 1, ETHER * 2, ETHER * 5,
            ETHER * 10] := rfl
        rw [this] at hs
        exact scanVolumes_nonempty_isSome hs
      have hr : r.isSome := getBestCrossedMarketGo_isSome h hb2
      constructor
      · intro hnone
        rw [hnone] at hr
        simp at hr
      · intro hc
        simp at hc

/-- Witness for C10: a non-empty crossed list over dust-sized markets, where
the adopted first-volume profit is negative — a result is still returned. -/
theorem getBestCrossedMarket_none_iff_empty_witness :
    getBestCrossedMarket [(⟨1, 10, 10⟩, ⟨2, 10, 10⟩)] 0 =
        some (some ⟨-9999999999999996, 10^16, 0, ⟨2, 10, 10⟩, ⟨1, 10, 10⟩⟩) ∧
      ((some ⟨-9999999999999996, 10^16, 0, ⟨2, 10, 10⟩, ⟨1, 10, 10⟩⟩ :
            Option CrossedMarketDetails) = none ↔
        ([(⟨1, 10, 10⟩, ⟨2, 10, 10⟩)] : List (EthMarket × EthMarket)) = []) :=
  ⟨by decide,
    getBestCrossedMarket_none_iff_empty [(⟨1, 10, 10⟩, ⟨2, 10, 10⟩)] 0
      (some ⟨-9999999999999996, 10^16, 0, ⟨2, 10, 10⟩, ⟨1, 10, 10⟩⟩) (by decide)⟩

theorem scanVolumes_tokenAddress {sellToMarket buyFromMarket : EthMarket}
    {tokenAddress : Nat} :
    ∀ {l : List Int} {best r : Option CrossedMarketDetails},
      scanVolumes sellToMarket buyFromMarket tokenAddress best l = some r →
        (∀ b, best = some b → b.tokenAddress = tokenAddress) →
          ∀ b', r = some b' → b'.tokenAddress = tokenAddress := by
  intro l
  induction l with
  | nil =>
    intro best r h hb b' hr
    unfold scanVolumes at h
    exact hb b' ((Option.some_inj.mp h) ▸ hr)
  | cons size rest ih =>
    intro best r h hb b' hr
    unfold scanVolumes at h
    cases hp : profitAt buyFromMarket sellToMarket size with
    | none => rw [hp] at h; simp at h
    | some profit =>
      rw [hp] at h
      cases best with
      | none =>
        simp only at h
        exact ih h (by intro b h0; injection h0 with h0; rw [← h0]) b' hr
      | some b =>
        simp only at h
        by_cases hcmp : profit < b.profit
        · rw [if_pos hcmp] at h
          cases hq : profitAt buyFromMarket sellToMarket (Int.tdiv (size + b.volume) 2) with
          | none => rw [hq] at h; simp at h
          | some tryProfit =>
            rw [hq] at h
            simp only at h
            by_cases htry : b.profit < tryProfit
            · rw [if_pos htry] at h
              have : r = some ⟨tryProfit, Int.tdiv (size + b.volume) 2, tokenAddress,
                  buyFromMarket, sellToMarket⟩ := (Option.some_inj.mp h).symm
              rw [this] at hr
              exact (Option.some_inj.mp hr) ▸ rfl
            · rw [if_neg htry] at h
              have : r = some b := (Option.some_inj.mp h).symm
              rw [this] at hr
              exact hb b' ((Option.some_inj.mp hr) ▸ rfl)
        · rw [if_neg hcmp] at h
          exact ih h (by intro b0 h0; injection h0 with h0; rw [← h0]) b' hr

theorem getBestCrossedMarket_tokenAddress {tokenAddress : Nat} :
    ∀ {cms : List (EthMarket × EthMarket)} {best r : Option CrossedMarketDetails},
      getBestCrossedMarketGo tokenAddress best cms = some r →
        (∀ b, best = some b → b.tokenAddress = tokenAddress) →
          ∀ b', r = some b' → b'.tokenAddress = tokenAddress := by
  intro cms
  induction cms with
  | nil =>
    intro best r h hb b' hr
    unfold getBestCrossedMarketGo at h
    exact hb b' ((Option.some_inj.mp h) ▸ hr)
  | cons hd rest ih =>
    intro best r h hb b' hr
    obtain ⟨sellToMarket, buyFromMarket⟩ := hd
    unfold getBestCrossedMarketGo at h
    cases hs : scanVolumes sellToMarket buyFromMarket tokenAddress best TEST_VOLUMES with
    | none => rw [hs] at h; simp at h
    | some best2 =>
      rw [hs] at h
      exact ih h (scanVolumes_tokenAddress hs hb) b' hr

/-- Per-token body of `evaluateMarkets` (Arbitrage.ts:143-213): price the
markets, collect the crossed pairs, take the best, and keep it only when its
profit strictly exceeds `ETHER/1000`. -/
def evalGo : List (Nat × List EthMarket) → Option (List CrossedMarketDetails)
  | [] => some []
  | (tokenAddress, markets) :: rest =>
    match pricedMarketsOf markets with
    | none => none
    | some pms =>
      match getBestCrossedMarket (crossedMarketsFrom pms) tokenAddress with
      | none => none
      | some best =>
        match evalGo rest with
        | none => none
        | some tail =>
          match best with
          | some b =>
            if Int.tdiv ETHER 1000 < b.profit then some (b :: tail) else some tail
          | none => some tail

/-- The comparator of the final sort (Arbitrage.ts:219): descending profit. -/
def profitGe (a b : CrossedMarketDetails) : Prop := b.profit ≤ a.profit

instance : DecidableRel profitGe := fun a b => inferInstanceAs (Decidable (b.profit ≤ a.profit))

instance : IsTotal CrossedMarketDetails profitGe := ⟨fun a b => le_total b.profit a.profit⟩

instance : IsTrans CrossedMarketDetails profitGe := ⟨fun _ _ _ hab hbc => le_trans hbc hab⟩

/-- `evaluateMarkets` (Arbitrage.ts:136-221): per-token best opportunities,
then sorted by descending profit. -/
def evaluateMarkets (marketsByToken : List (Nat × List EthMarket)) :
    Option (List CrossedMarketDetails) :=
  (evalGo marketsByToken).map (List.insertionSort profitGe)

theorem evalGo_spec :
    ∀ {marketsByToken : List (Nat × List EthMarket)} {l : List CrossedMarketDetails},
      evalGo marketsByToken = some l →
        (∀ d ∈ l, Int.tdiv ETHER 1000 < d.profit) ∧
          (l.map (fun d => d.tokenAddress)).Sublist (marketsByToken.map Prod.fst) := by
  intro mbt
  induction mbt with
  | nil =>
    intro l h
    unfold evalGo at h
    have := (Option.some_inj.mp h).symm
    subst this
    exact ⟨by intro d hd; simp at hd, by simp⟩
  | cons hd rest ih =>
    intro l h
    obtain ⟨tokenAddress, markets⟩ := hd
    unfold evalGo at h
    cases hpm : pricedMarketsOf markets with
    | none => rw [hpm] at h; simp at h
    | some pms =>
      rw [hpm] at h
      simp only at h
      cases hbest : getBestCrossedMarket (crossedMarketsFrom pms) tokenAddress with
      | none => rw [hbest] at h; simp at h
      | some best =>
        rw [hbest] at h
        simp only at h
        cases hrest : evalGo rest with
        | none => rw [hrest] at h; simp at h
        | some tail =>
          rw [hrest] at h
          simp only at h
          obtain ⟨ihthr, ihsub⟩ := ih hrest
          cases best with
          | none =>
            simp only at h
            have := (Option.some_inj.mp h).symm
            subst this
            exact ⟨ihthr, List.Sublist.cons _ ihsub⟩
          | some b =>
            simp only at h
            by_cases hthr : Int.tdiv ETHER 1000 < b.profit
            · rw [if_pos hthr] at h
              have := (Option.some_inj.mp h).symm
              subst this
              have htok : b.tokenAddress = tokenAddress :=
                getBestCrossedMarket_tokenAddress hbest (by rintro b0 h0; cases h0) b rfl
              refine ⟨?_, ?_⟩
              · intro d hd
                rcases List.mem_cons.mp hd with rfl | hd
                · exact hthr
                · exact ihthr d hd
              · simp only [List.map_cons, htok]
                exact List.Sublist.cons₂ _ ihsub
            · rw [if_neg hthr] at h
              have := (Option.some_inj.mp h).symm
              subst this
              exact ⟨ihthr, List.Sublist.cons _ ihsub⟩

/-- C8: whenever `evaluateMarkets` completes, each kept opportunity's profit
strictly exceeds `ETHER/1000`, the result is sorted descending by profit with
no inversions, and (since a mapping has distinct token keys) it holds at most
one opportunity per token address. -/
theorem evaluateMarkets_threshold_sorted_unique
    (marketsByToken : List (Nat × List EthMarket)) (res : List CrossedMarketDetails)
    (hkeys : (marketsByToken.map Prod.fst).Nodup)
    (h : evaluateMarkets marketsByToken = some res) :
    (∀ d ∈ res, Int.tdiv ETHER 1000 < d.profit) ∧
      res.Pairwise (fun a b => b.profit ≤ a.profit) ∧
        (res.map (fun d => d.tokenAddress)).Nodup := by
  unfold evaluateMarkets at h
  cases hg : evalGo marketsByToken with
  | none => rw [hg] at h; simp at h
  | some l =>
    rw [hg] at h
    simp only [Option.map_some'] at h
    have hres : res = List.insertionSort profitGe l := (Option.some_inj.mp h).symm
    obtain ⟨hthr, hsub⟩ := evalGo_spec hg
    have hperm : (List.insertionSort profitGe l).Perm l := List.perm_insertionSort profitGe l
    subst hres
    refine ⟨?_, ?_, ?_⟩
    · intro d hd
      exact hthr d (hperm.mem_iff.mp hd)
    · exact List.sorted_insertionSort profitGe l
    · have hnl : (l.map (fun d => d.tokenAddress)).Nodup := List.Nodup.sublist hsub hkeys
      exact ((hperm.map (fun d => d.tokenAddress)).nodup_iff).mpr hnl

/-- Witness for C8: a one-token mapping with a genuinely crossed market pair;
the single surviving opportunity clears the `ETHER/1000` threshold. -/
theorem evaluateMarkets_threshold_sorted_unique_witness :
    (([(7, [⟨1, 10^19, 10^18⟩, ⟨2, 10^19, 10^19⟩])] :
          List (Nat × List EthMarket)).map Prod.fst).Nodup ∧
      evaluateMarkets [(7, [⟨1, 10^19, 10^18⟩, ⟨2, 10^19, 10^19⟩])] =
        some [⟨4237079667618115979, 2000000000000000000, 7,
          ⟨2, 10^19, 10^19⟩, ⟨1, 10^19, 10^18⟩⟩] ∧
      ((∀ d ∈ [(⟨4237079667618115979, 2000000000000000000, 7,
            ⟨2, 10^19, 10^19⟩, ⟨1, 10^19, 10^18⟩⟩ : CrossedMarketDetails)],
          Int.tdiv ETHER 1000 < d.profit) ∧
        ([(⟨4237079667618115979, 2000000000000000000, 7,
            ⟨2, 10^19, 10^19⟩, ⟨1, 10^19, 10^18⟩⟩ : CrossedMarketDetails)]).Pairwise
          (fun a b => b.profit ≤ a.profit) ∧
        (([(⟨4237079667618115979, 2000000000000000000, 7,
            ⟨2, 10^19, 10^19⟩, ⟨1, 10^19, 10^18⟩⟩ : CrossedMarketDetails)]).map
          (fun d => d.tokenAddress)).Nodup) :=
  ⟨by decide, by decide,
    evaluateMarkets_threshold_sorted_unique
      [(7, [⟨1, 10^19, 10^18⟩, ⟨2, 10^19, 10^19⟩])]
      [⟨4237079667618115979, 2000000000000000000, 7,
        ⟨2, 10^19, 10^19⟩, ⟨1, 10^19, 10^18⟩⟩]
      (by decide) (by decide)⟩

/-- The external collaborators consulted by `takeCrossedMarkets`
(Arbitrage.ts:259-301), modelled as per-candidate oracles: `estimateGas`
returns `none` when gas estimation throws; `simulationError` models a
top-level `"error" in simulation`; `firstRevert` models
`simulation.firstRevert !== undefined`. -/
structure Relay where
  estimateGas : CrossedMarketDetails → Option Int
  simulationError : CrossedMarketDetails → Bool
  firstRevert : CrossedMarketDetails → Bool

/-- A candidate survives both gates: gas estimation succeeds, the estimate is
not above the 1,400,000 hard ceiling, and simulation reports neither a
top-level error nor a first revert. -/
def passesGates (relay : Relay) (m : CrossedMarketDetails) : Bool :=
  match relay.estimateGas m with
  | none => false
  | some estimate =>
    !(decide ((1400000 : Int) < estimate)) && !(relay.simulationError m || relay.firstRevert m)

/-- `takeCrossedMarkets` (Arbitrage.ts:225-317): walk the candidates in
order, skipping any that fails a gate; submit the first survivor for the two
consecutive future block heights and stop; throw if every candidate is
exhausted. -/
def takeCrossedMarkets (relay : Relay) (blockNumber : Int) :
    List CrossedMarketDetails → Except String (CrossedMarketDetails × List Int)
  | [] => .error "No arbitrage submitted to relay"
  | bestCrossedMarket :: rest =>
    match relay.estimateGas bestCrossedMarket with
    | none => takeCrossedMarkets relay blockNumber rest
    | some estimateGas =>
      if (1400000 : Int) < estimateGas then takeCrossedMarkets relay blockNumber rest
      else if relay.simulationError bestCrossedMarket || relay.firstRevert bestCrossedMarket then
        takeCrossedMarkets relay blockNumber rest
      else .ok (bestCrossedMarket, [blockNumber + 1, blockNumber + 2])

/-- C9: `takeCrossedMarkets` fails with the explicit exhaustion error iff no
candidate survives the gates; and any submission is of the first surviving
candidate in order, targeted at exactly the two consecutive future block
heights, with every earlier candidate having failed a gate. -/
theorem takeCrossedMarkets_first_survivor (relay : Relay) (blockNumber : Int) :
    ∀ cands : List CrossedMarketDetails,
      (takeCrossedMarkets relay blockNumber cands =
          Except.error "No arbitrage submitted to relay" ↔
        ∀ m ∈ cands, passesGates relay m = false) ∧
      (∀ m blocks, takeCrossedMarkets relay blockNumber cands = Except.ok (m, blocks) →
        blocks = [blockNumber + 1, blockNumber + 2] ∧ passesGates relay m = true ∧
          ∃ pre post, cands = pre ++ m :: post ∧ ∀ x ∈ pre, passesGates relay x = false) := by
  intro cands
  induction cands with
  | nil =>
    constructor
    · simp [takeCrossedMarkets]
    · intro m blocks h
      simp [takeCrossedMarkets] at h
  | cons c rest ih =>
    obtain ⟨ih1, ih2⟩ := ih
    have skip : takeCrossedMarkets relay blockNumber (c :: rest) =
          takeCrossedMarkets relay blockNumber rest →
        passesGates relay c = false →
        (takeCrossedMarkets relay blockNumber (c :: rest) =
            Except.error "No arbitrage submitted to relay" ↔
          ∀ m ∈ c :: rest, passesGates relay m = false) ∧
        (∀ m blocks, takeCrossedMarkets relay blockNumber (c :: rest) = Except.ok (m, blocks) →
          blocks = [blockNumber + 1, blockNumber + 2] ∧ passesGates relay m = true ∧
            ∃ pre post, c :: rest = pre ++ m :: post ∧
              ∀ x ∈ pre, passesGates relay x = false) := by
      intro heq hpg
      rw [heq]
      constructor
      · rw [ih1]
        constructor
        · intro hall m hm
          rcases List.mem_cons.mp hm with rfl | hm
          · exact hpg
          · exact hall m hm
        · intro hall m hm
          exact hall m (List.mem_cons_of_mem _ hm)
      · intro m blocks h
        obtain ⟨h1, h2, pre, post, hsplit, hpre⟩ := ih2 m blocks h
        refine ⟨h1, h2, c :: pre, post, by rw [hsplit]; rfl, ?_⟩
        intro x hx
        rcases List.mem_cons.mp hx with rfl | hx
        · exact hpg
        · exact hpre x hx
    cases hest : relay.estimateGas c with
    | none =>
      exact skip (by rw [takeCrossedMarkets, hest]) (by simp [passesGates, hest])
    | some g =>
      by_cases hg : (1400000 : Int) < g
      · exact skip (by rw [takeCrossedMarkets, hest]; simp only; rw [if_pos hg])
          (by simp [passesGates, hest, hg])
      · by_cases hsim : (relay.simulationError c || relay.firstRevert c) = true
        · exact skip
            (by rw [takeCrossedMarkets, hest]; simp only; rw [if_neg hg, if_pos hsim])
            (by simp [passesGates, hest, hg, hsim])
        · have hok : takeCrossedMarkets relay blockNumber (c :: rest) =
              Except.ok (c, [blockNumber + 1, blockNumber + 2]) := by
            rw [takeCrossedMarkets, hest]
            simp only
            rw [if_neg hg, if_neg hsim]
          have hpg : passesGates relay c = true := by
            simp only [passesGates, hest]
            rw [decide_eq_false hg, Bool.eq_false_iff.mpr hsim]
            rfl
          rw [hok]
          constructor
          · constructor
            · intro h
              exact absurd h (by simp)
            · intro hall
              have := hall c (List.mem_cons_self c rest)
              rw [hpg] at this
              simp at this
          · intro m blocks h
            have hinj := Except.ok.inj h
            obtain ⟨h1, h2⟩ := Prod.mk.injEq .. ▸ hinj
            subst h1
            subst h2
            exact ⟨rfl, hpg, [], rest, rfl, by intro x hx; simp at hx⟩
